import Mathlib

/-!
Verification of the analytics engine of `src/app.py` (a DuckDB/Streamlit
portfolio dashboard).  The SQL queries and the small amount of Python glue
that compute the dashboard's numbers are shallowly embedded here:

* SQL numeric values are `Option ℚ` (`none` = SQL `NULL`; pandas surfaces
  NULL numeric aggregates as `NaN`, which also carries no numeric value and
  is likewise modelled as `none`);
* machine floating point is modelled by exact rationals;
* each SQL aggregate (`SUM`, `AVG`, `COUNT`, window functions, `NTILE`,
  `GROUP BY`) is translated to an explicit list computation;
* `ORDER BY` is modelled by a stable insertion sort.

Definitions are annotated with the source lines they embed.
-/

namespace App

/-- An account record of the base table `dev.int_customer_account_metrics`
(spec section 3): four nullable numeric fields and three nullable
categorical fields. -/
structure Rec where
  balance : Option ℚ
  loan_amount : Option ℚ
  interest_rate : Option ℚ
  net_flow : Option ℚ
  risk_tolerance : Option String
  region : Option String
  account_type : Option String
deriving DecidableEq

/-- SQL `SUM` over a column: `NULL`s are skipped, and the sum over an empty
or all-`NULL` column is `NULL`. -/
def osum (l : List (Option ℚ)) : Option ℚ :=
  match l.filterMap id with
  | [] => none
  | v => some v.sum

/-- SQL multiplication: `NULL` if either operand is `NULL`
(used by `SUM(interest_rate * balance)`, src/app.py line 160). -/
def omul (a b : Option ℚ) : Option ℚ :=
  match a, b with
  | some x, some y => some (x * y)
  | _, _ => none

/-- SQL `AVG` over a column: arithmetic mean of the non-`NULL` values,
`NULL` when there are none (src/app.py line 161). -/
def oavg (l : List (Option ℚ)) : Option ℚ :=
  match l.filterMap id with
  | [] => none
  | v => some (v.sum / v.length)

-- ---------------------------------------------------------------------------
-- Filter Predicate Builder (src/app.py lines 53-68 and 94-103)
-- ---------------------------------------------------------------------------

/-- The three per-dimension domains of known values, as produced once at
startup by `load_filter_options` (src/app.py lines 94-103): the distinct
non-null values of each categorical column. -/
structure Domains where
  risks : List String
  regions : List String
  acct_types : List String

/-- The three multiselect selections (`sel_risks`, `sel_regions`,
`sel_accts`); each is a subset of the corresponding domain in the UI. -/
structure Selections where
  risks : List String
  regions : List String
  accts : List String

/-- SQL `v IN (...)` membership over a nullable column: a `NULL` value never
matches (src/app.py lines 53-55; the quoting in `sql_in` round-trips each
value unchanged, so membership over the escaped literals coincides with
plain string membership). -/
def inMatch (v : Option String) (sel : List String) : Bool :=
  match v with
  | none => false
  | some s => sel.contains s

/-- A dimension contributes a clause exactly when its selection is non-empty
AND selects strictly fewer values than the dimension's known domain
(src/app.py lines 60, 62, 64: `if xs_selected and len(xs_selected) < len(xs)`). -/
def clauseActive (sel dom : List String) : Bool :=
  !sel.isEmpty && sel.length < dom.length

/-- The record predicate denoted by the `WHERE` clause built by
`build_where_clause` (src/app.py lines 58-68): the conjunction of the
active dimensions' `IN` tests; an empty clause list accepts everything. -/
def build_where_pred (doms : Domains) (sels : Selections) (r : Rec) : Bool :=
  (!clauseActive sels.risks doms.risks || inMatch r.risk_tolerance sels.risks) &&
  (!clauseActive sels.regions doms.regions || inMatch r.region sels.regions) &&
  (!clauseActive sels.accts doms.acct_types || inMatch r.account_type sels.accts)

/-- The predicate that claim C3 describes: a membership test for every
non-empty selection, regardless of whether it covers the whole domain.
Stated from the spec's words, to be compared with `build_where_pred`. -/
def claimC3Pred (sels : Selections) (r : Rec) : Bool :=
  (sels.risks.isEmpty || inMatch r.risk_tolerance sels.risks) &&
  (sels.regions.isEmpty || inMatch r.region sels.regions) &&
  (sels.accts.isEmpty || inMatch r.account_type sels.accts)

-- ---------------------------------------------------------------------------
-- Aggregate Metrics Engine: the overview query (src/app.py lines 154-165)
-- ---------------------------------------------------------------------------

/-- The single row returned by the overview query. -/
structure Overview where
  accounts : Nat
  total_balance : Option ℚ
  total_loan_amount : Option ℚ
  weighted_avg_interest_rate : Option ℚ
  avg_net_flow : Option ℚ
  total_net_flow : Option ℚ
deriving DecidableEq

/-- `CASE WHEN SUM(balance) = 0 THEN NULL ELSE SUM(interest_rate * balance)
/ SUM(balance) END` (src/app.py lines 159-160).  When `SUM(balance)` is
`NULL` the comparison with 0 is not true, and the `ELSE` division by `NULL`
yields `NULL`; likewise a `NULL` numerator yields `NULL`. -/
def weightedAvgRate (rs : List Rec) : Option ℚ :=
  match osum (rs.map (·.balance)) with
  | none => none
  | some s =>
      if s = 0 then none
      else
        match osum (rs.map (fun r => omul r.interest_rate r.balance)) with
        | none => none
        | some num => some (num / s)

/-- The overview query (src/app.py lines 154-164) evaluated over the records
passing the `WHERE` clause. -/
def overviewOf (rs : List Rec) : Overview where
  accounts := rs.length
  total_balance := osum (rs.map (·.balance))
  total_loan_amount := osum (rs.map (·.loan_amount))
  weighted_avg_interest_rate := weightedAvgRate rs
  avg_net_flow := oavg (rs.map (·.net_flow))
  total_net_flow := osum (rs.map (·.net_flow))

/-- The formula claim C4 states for the weighted rate: both the numerator
and the denominator range only over records in which `interest_rate` and
`balance` are both non-null; undefined when that denominator is 0.
Stated from the spec's words, to be compared with `weightedAvgRate`. -/
def claimC4Rate (rs : List Rec) : Option ℚ :=
  let pairs := rs.filterMap fun r =>
    match r.interest_rate, r.balance with
    | some i, some b => some (i, b)
    | _, _ => none
  let den := (pairs.map (·.2)).sum
  if den = 0 then none
  else some ((pairs.map fun p => p.1 * p.2).sum / den)

-- ---------------------------------------------------------------------------
-- Concentration Engine: shared eligibility filter and sorts
-- ---------------------------------------------------------------------------

/-- The `base` CTE shared by the three concentration queries
(src/app.py lines 169-171, 193-195, 241-243):
`SELECT balance FROM ... WHERE ... balance IS NOT NULL AND balance >= 0`. -/
def eligibleBalances (rs : List Rec) : List ℚ :=
  (rs.filterMap (·.balance)).filter (fun b => decide (0 ≤ b))

/-- `ORDER BY balance ASC` (src/app.py line 199), as a stable sort. -/
def sortAsc (l : List ℚ) : List ℚ := l.insertionSort (· ≤ ·)

/-- `ORDER BY balance DESC` (src/app.py lines 175, 246), as a stable sort. -/
def sortDesc (l : List ℚ) : List ℚ := l.insertionSort (· ≥ ·)

-- ---------------------------------------------------------------------------
-- Top-10% concentration (src/app.py lines 168-189, `wealth_df`)
-- ---------------------------------------------------------------------------

/-- `SUM(CASE WHEN rn <= k THEN balance ELSE 0 END)` over the rows of the
`ranked` CTE (src/app.py line 182), where `rn` is the 1-based
`ROW_NUMBER() OVER (ORDER BY balance DESC)`; `rn` is the number of the next
row to be summed. -/
def caseSum (k : Nat) : Nat → List ℚ → ℚ
  | _, [] => 0
  | rn, b :: rest => (if rn ≤ k then b else 0) + caseSum k (rn + 1) rest

/-- `CEIL(n * 0.10)` (src/app.py line 182) for an integer row count `n`:
equal to `⌈n / 10⌉`, computed as `(n + 9) / 10` in natural-number
arithmetic (`ceil_tenth_eq` below proves the two agree). -/
def ceilTenth (n : Nat) : Nat := (n + 9) / 10

/-- The row of `wealth_df` (src/app.py lines 168-188): `none` when the
`base` CTE is empty (then `wealth = {}` on line 189 and every `wealth.get`
is `None`); otherwise the pair `(total_balance, top_10_balance)`. -/
def wealthRow (rs : List Rec) : Option (ℚ × ℚ) :=
  match eligibleBalances rs with
  | [] => none
  | bs => some (bs.sum, caseSum (ceilTenth bs.length) 1 (sortDesc bs))

/-- `top_10_share` (src/app.py line 186): `NULL` when `total_balance = 0`,
and absent (`None` via `wealth.get`) when the base is empty. -/
def top10Share (rs : List Rec) : Option ℚ :=
  match wealthRow rs with
  | none => none
  | some (total, top) => if total = 0 then none else some (top / total)

/-- The top-decile share as claim C2 words it: the sum of the `k` largest
eligible balances over the sum of all of them, `k = ⌈0.10 * n⌉`, undefined
when `n = 0` or the total is 0.  Stated from the spec's words, to be
compared with `top10Share`. -/
def claimC2Share (rs : List Rec) : Option ℚ :=
  let bs := eligibleBalances rs
  if bs.length = 0 then none
  else if bs.sum = 0 then none
  else some (((sortDesc bs).take ⌈(bs.length : ℚ) * (1 / 10)⌉₊).sum / bs.sum)

-- ---------------------------------------------------------------------------
-- Lorenz curve and Gini (src/app.py lines 192-222)
-- ---------------------------------------------------------------------------

/-- The rows of `lorenz_df` (src/app.py lines 192-211): for each 1-based
rank `rn = i + 1` over `ORDER BY balance ASC`, the pair of
`CASE WHEN n = 0 THEN NULL ELSE rn / n END` and
`CASE WHEN total = 0 THEN NULL ELSE cum_balance / total END`,
where `cum_balance` is the running prefix sum. -/
def lorenzRows (rs : List Rec) : List (Option ℚ × Option ℚ) :=
  let bs := eligibleBalances rs
  (List.range bs.length).map fun (i : ℕ) =>
    (if bs.length = 0 then none else some (((i : ℚ) + 1) / bs.length),
     if bs.sum = 0 then none else some (((sortAsc bs).take (i + 1)).sum / bs.sum))

/-- The `curve` dataframe (src/app.py lines 215-218): built only when
`lorenz_df` is non-empty and the population shares are not all missing
(both conditions reduce to a non-empty base), with the origin row
prepended. -/
def lorenzCurve (rs : List Rec) : Option (List (Option ℚ × Option ℚ)) :=
  if (eligibleBalances rs).length = 0 then none
  else some ((some 0, some 0) :: lorenzRows rs)

/-- Composite trapezoidal rule, exactly `np.trapz(y, x)`
(src/app.py line 221): the sum over consecutive points of
`(x₂ - x₁) * (y₁ + y₂) / 2`. -/
def trapzArea : List (ℚ × ℚ) → ℚ
  | [] => 0
  | [_] => 0
  | p :: q :: rest => (q.1 - p.1) * (p.2 + q.2) / 2 + trapzArea (q :: rest)

/-- Extract the numeric points of a curve; `none` when any coordinate is
missing (an `NaN` coordinate poisons `np.trapz` into `NaN`, i.e. no numeric
value). -/
def stripPts : List (Option ℚ × Option ℚ) → Option (List (ℚ × ℚ))
  | [] => some []
  | (some a, some b) :: rest => (stripPts rest).map ((a, b) :: ·)
  | _ => none

/-- `gini = 1 - 2 * area` (src/app.py lines 213-222): `None` when no curve
was built, and no numeric value either when the wealth shares are missing
(`total = 0` makes the trapezoid `NaN`). -/
def giniOf (rs : List Rec) : Option ℚ :=
  match lorenzCurve rs with
  | none => none
  | some c =>
      match stripPts c with
      | none => none
      | some pts => some (1 - 2 * trapzArea pts)

/-- The Lorenz points exactly as the spec words them: the origin followed by
the points `(i / n, cumsum_i / total)` for `i = 1 .. n` over the
ascending-sorted balances.  Stated from the spec's words, to be compared
with the curve built by the code. -/
def specLorenzPoints (bs : List ℚ) : List (ℚ × ℚ) :=
  (0, 0) :: (List.range' 1 bs.length).map fun (i : ℕ) =>
    ((i : ℚ) / bs.length, ((sortAsc bs).take i).sum / bs.sum)

/-- `1 - 2 * A` with `A` the trapezoidal area under the spec's Lorenz
points, integrated with population share as the integration variable.
Stated from the spec's words, to be compared with `giniOf`. -/
def specGini (bs : List ℚ) : ℚ := 1 - 2 * trapzArea (specLorenzPoints bs)

-- ---------------------------------------------------------------------------
-- Decile table (src/app.py lines 240-252, `deciles_df`)
-- ---------------------------------------------------------------------------

/-- The bucket sizes assigned by `NTILE(10)` over `n` rows: the first
`n % 10` buckets receive `n / 10 + 1` rows, the remaining buckets
`n / 10` rows (0-based bucket index here; SQL's bucket `d` is index
`d - 1`). -/
def ntileSizes (n : Nat) : List Nat :=
  (List.range 10).map fun i => n / 10 + if i < n % 10 then 1 else 0

/-- Split a list into consecutive chunks of the given sizes. -/
def splitSizes : List Nat → List ℚ → List (List ℚ)
  | [], _ => []
  | s :: ss, xs => xs.take s :: splitSizes ss (xs.drop s)

/-- A row of `deciles_df`: `decile, COUNT(*), MIN, AVG, MAX, SUM` of the
bucket's balances (src/app.py lines 248-250). -/
structure DecileRow where
  decile : Nat
  accounts : Nat
  min_balance : ℚ
  avg_balance : ℚ
  max_balance : ℚ
  total_balance : ℚ
deriving DecidableEq

/-- The aggregate row of one bucket; `none` for a bucket that received no
rows (`GROUP BY decile` produces no row for it). -/
def decileRowOf (d : Nat) (g : List ℚ) : Option DecileRow :=
  match g with
  | [] => none
  | x :: xs =>
      some ⟨d, (x :: xs).length, xs.foldl min x,
            (x :: xs).sum / (x :: xs).length, xs.foldl max x, (x :: xs).sum⟩

/-- `GROUP BY decile ORDER BY decile` over the bucketed balances: one row
per non-empty bucket, numbered from `d` upward. -/
def decileRowsAux : Nat → List (List ℚ) → List DecileRow
  | _, [] => []
  | d, g :: gs =>
      match decileRowOf d g with
      | none => decileRowsAux (d + 1) gs
      | some row => row :: decileRowsAux (d + 1) gs

/-- `deciles_df` (src/app.py lines 240-252): `NTILE(10) OVER (ORDER BY
balance DESC)` over the eligible balances, then per-bucket aggregates in
bucket order. -/
def decilesOf (rs : List Rec) : List DecileRow :=
  let bs := eligibleBalances rs
  decileRowsAux 1 (splitSizes (ntileSizes bs.length) (sortDesc bs))

-- ---------------------------------------------------------------------------
-- Segment rollups (src/app.py lines 225-237 and 255-267)
-- ---------------------------------------------------------------------------

/-- A row of `risk_full_df` (src/app.py lines 225-237). -/
structure RiskRow where
  risk_tolerance : Option String
  accounts : Nat
  total_balance : Option ℚ
  total_loan_amount : Option ℚ
  avg_net_flow : Option ℚ
deriving DecidableEq

/-- A row of `flow_by_product_df` / `flow_by_region_df`
(src/app.py lines 255-267). -/
structure FlowRow where
  group_value : Option String
  total_net_flow : Option ℚ
  accounts : Nat
  total_balance : Option ℚ
deriving DecidableEq

/-- `CASE risk_tolerance WHEN 'Low' THEN 1 WHEN 'Medium' THEN 2 WHEN 'High'
THEN 3 ELSE 4 END` (src/app.py lines 231-236); a `NULL` matches no `WHEN`
and falls to the `ELSE`. -/
def riskCaseKey (v : Option String) : Nat :=
  match v with
  | some s => if s = "Low" then 1 else if s = "Medium" then 2 else if s = "High" then 3 else 4
  | none => 4

/-- The aggregate row of one `risk_tolerance` group. -/
def riskRowOf (rs : List Rec) (k : Option String) : RiskRow where
  risk_tolerance := k
  accounts := (rs.filter (fun r => decide (r.risk_tolerance = k))).length
  total_balance := osum ((rs.filter (fun r => decide (r.risk_tolerance = k))).map (·.balance))
  total_loan_amount := osum ((rs.filter (fun r => decide (r.risk_tolerance = k))).map (·.loan_amount))
  avg_net_flow := oavg ((rs.filter (fun r => decide (r.risk_tolerance = k))).map (·.net_flow))

/-- Row order of `risk_full_df`: ascending in the `CASE` key. -/
def riskLe (a b : RiskRow) : Prop :=
  riskCaseKey a.risk_tolerance ≤ riskCaseKey b.risk_tolerance

instance : DecidableRel riskLe := fun a b =>
  inferInstanceAs (Decidable (riskCaseKey a.risk_tolerance ≤ riskCaseKey b.risk_tolerance))

instance : IsTotal RiskRow riskLe :=
  ⟨fun a b => Nat.le_total (riskCaseKey a.risk_tolerance) (riskCaseKey b.risk_tolerance)⟩

instance : IsTrans RiskRow riskLe := ⟨fun _ _ _ => Nat.le_trans⟩

/-- `risk_full_df` (src/app.py lines 225-237): grouped over the FULL base
table — the query carries no `WHERE` clause (the chart only highlights the
selection, src/app.py line 394) — one group per distinct `risk_tolerance`
value including the `NULL` group, ordered by the risk `CASE` key. -/
def riskRollupOf (rs : List Rec) : List RiskRow :=
  ((rs.map (·.risk_tolerance)).dedup.map (riskRowOf rs)).insertionSort riskLe

/-- The rollup claim C8 describes for the risk dimension: computed over the
filtered record set, one row per distinct non-null group value.  Stated
from the spec's words, to be compared with `riskRollupOf`. -/
def claimC8RiskRollup (rs : List Rec) (pred : Rec → Bool) : List RiskRow :=
  (((rs.filter pred).filterMap (·.risk_tolerance)).dedup.map
    (fun s => riskRowOf (rs.filter pred) (some s))).insertionSort riskLe

/-- The aggregate row of one `account_type` (resp. `region`) group. -/
def flowRowOf (key : Rec → Option String) (rs : List Rec) (k : Option String) : FlowRow where
  group_value := k
  total_net_flow := osum ((rs.filter (fun r => decide (key r = k))).map (·.net_flow))
  accounts := (rs.filter (fun r => decide (key r = k))).length
  total_balance := osum ((rs.filter (fun r => decide (key r = k))).map (·.balance))

/-- A nullable total net flow ordered with the missing value below every
number. -/
def toBot (x : Option ℚ) : WithBot ℚ :=
  match x with
  | none => ⊥
  | some q => (q : WithBot ℚ)

/-- `ORDER BY total_net_flow DESC` on the rollup rows; a missing total
(no non-`NULL` `net_flow` in the group) sorts below every number. -/
def flowGe (a b : FlowRow) : Prop :=
  toBot b.total_net_flow ≤ toBot a.total_net_flow

instance : DecidableRel flowGe := fun a b =>
  inferInstanceAs (Decidable (toBot b.total_net_flow ≤ toBot a.total_net_flow))

instance : IsTotal FlowRow flowGe :=
  ⟨fun a b => le_total (toBot b.total_net_flow) (toBot a.total_net_flow)⟩

instance : IsTrans FlowRow flowGe := ⟨fun _ _ _ h h' => le_trans h' h⟩

/-- `flow_by_product_df` (src/app.py lines 255-260): grouped over the
filtered records by `account_type` (with a `NULL` group when present),
ordered by descending total net flow. -/
def flowByProductOf (rs : List Rec) : List FlowRow :=
  ((rs.map (·.account_type)).dedup.map (flowRowOf (·.account_type) rs)).insertionSort flowGe

/-- `flow_by_region_df` (src/app.py lines 262-267): the same rollup grouped
by `region`. -/
def flowByRegionOf (rs : List Rec) : List FlowRow :=
  ((rs.map (·.region)).dedup.map (flowRowOf (·.region) rs)).insertionSort flowGe

-- ---------------------------------------------------------------------------
-- Formatting boundary (src/app.py lines 22-37, 276-280, 444)
-- ---------------------------------------------------------------------------

/-- What a metric widget displays: either the placeholder string `"-"` or a
formatted number (the currency/percent decoration is irrelevant to the
claims and is abstracted away). -/
inductive Rendered where
  | placeholder : Rendered
  | num : ℚ → Rendered
deriving DecidableEq

/-- `fmt_money` (src/app.py lines 22-25): `None` and `NaN` (both modelled
as `none`) render as the placeholder `"-"`. -/
def fmt_money (x : Option ℚ) : Rendered :=
  match x with
  | none => .placeholder
  | some v => .num v

/-- `fmt_pct` (src/app.py lines 34-37): same missing-value policy. -/
def fmt_pct (x : Option ℚ) : Rendered :=
  match x with
  | none => .placeholder
  | some v => .num v

/-- `fmt_pct_from_rate` (src/app.py lines 28-31): same missing-value
policy. -/
def fmt_pct_from_rate (x : Option ℚ) : Rendered :=
  match x with
  | none => .placeholder
  | some v => .num v

/-- The Gini metric widget (src/app.py line 444):
`f"..." if gini is not None else "-"`. -/
def giniRendered (g : Option ℚ) : Rendered :=
  match g with
  | none => .placeholder
  | some v => .num v

/-- The `x or 0` fallbacks of src/app.py lines 277-279.  The overview
columns are float columns in which SQL `NULL` surfaces as `NaN`, and `NaN`
is truthy in Python, so the fallback replaces only an actual `0.0` (by
`0`); a missing value stays missing. -/
def pyOrZero (x : Option ℚ) : Option ℚ :=
  match x with
  | none => none
  | some v => if v = 0 then some 0 else some v

-- ---------------------------------------------------------------------------
-- Helper lemmas
-- ---------------------------------------------------------------------------

/-- The conditional rank sum of `wealth_df` is the sum of the first rows:
summing the entries whose 1-based row number (counted from `rn`) is at most
`k` sums the first `k + 1 - rn` entries. -/
theorem caseSum_eq_take_sum (k : Nat) (l : List ℚ) :
    ∀ rn : Nat, caseSum k rn l = (l.take (k + 1 - rn)).sum := by
  induction l with
  | nil => intro rn; simp [caseSum]
  | cons b rest ih =>
      intro rn
      by_cases h : rn ≤ k
      · have h1 : k + 1 - rn = (k - rn) + 1 := by omega
        have h2 : k + 1 - (rn + 1) = k - rn := by omega
        simp [caseSum, if_pos h, ih (rn + 1), h1, h2]
      · have h1 : k + 1 - rn = 0 := by omega
        have h2 : k + 1 - (rn + 1) = 0 := by omega
        simp [caseSum, if_neg h, ih (rn + 1), h1, h2]

/-- `CEIL(n * 0.10)` over the rationals agrees with the natural-number
formula `(n + 9) / 10` used in the embedding of `wealth_df`. -/
theorem ceil_tenth_eq (n : ℕ) : ⌈(n : ℚ) * (1 / 10)⌉₊ = (n + 9) / 10 := by
  rcases Nat.eq_zero_or_pos n with h0 | hpos
  · subst h0; norm_num
  · set k : ℕ := (n + 9) / 10 with hk
    have hdm := Nat.div_add_mod (n + 9) 10
    have hmod : (n + 9) % 10 < 10 := Nat.mod_lt _ (by norm_num)
    have hk1 : 1 ≤ k := by omega
    refine le_antisymm (Nat.ceil_le.2 ?_) ?_
    · have hnk : n ≤ 10 * k := by omega
      rw [mul_one_div, div_le_iff₀ (by norm_num : (0:ℚ) < 10)]
      calc (n : ℚ) ≤ ((10 * k : ℕ) : ℚ) := by exact_mod_cast hnk
        _ = (k : ℚ) * 10 := by push_cast; ring
    · by_contra hcon
      push_neg at hcon
      have h2 : ⌈(n : ℚ) * (1 / 10)⌉₊ ≤ k - 1 := by omega
      have h3 : (n : ℚ) * (1 / 10) ≤ ((k - 1 : ℕ) : ℚ) := Nat.ceil_le.1 h2
      have h4 : ((k - 1 : ℕ) : ℚ) = (k : ℚ) - 1 := by push_cast [Nat.cast_sub hk1]; ring
      have h5 : 10 * (k - 1) < n := by omega
      have h6 : ((10 * (k - 1) : ℕ) : ℚ) < (n : ℚ) := by exact_mod_cast h5
      have h7 : ((10 * (k - 1) : ℕ) : ℚ) = ((k : ℚ) - 1) * 10 := by
        push_cast [Nat.cast_sub hk1]; ring
      rw [mul_one_div, div_le_iff₀ (by norm_num : (0:ℚ) < 10)] at h3
      rw [h4] at h3
      rw [h7] at h6
      linarith

-- ---------------------------------------------------------------------------
-- Claim C2: top-decile share
-- ---------------------------------------------------------------------------

/-- C2. For every filtered record set, the top-decile share equals the sum
of the `k` largest eligible balances divided by the sum of all eligible
balances, with `n` the eligible count, `k = ⌈0.10 · n⌉` and balances sorted
descending; the result is undefined (not zero) when `n = 0` or when the
total of eligible balances is 0. -/
theorem top_decile_share_eq_spec (rs : List Rec) : top10Share rs = claimC2Share rs := by
  unfold top10Share wealthRow claimC2Share
  cases h : eligibleBalances rs with
  | nil => simp
  | cons b bs' =>
      have hne : (b :: bs').length ≠ 0 := by simp
      simp only [hne, if_false, reduceIte]
      by_cases hs : (b :: bs').sum = 0
      · simp [hs]
      · simp only [hs, if_neg hs, reduceIte]
        have := caseSum_eq_take_sum (ceilTenth (b :: bs').length) (sortDesc (b :: bs')) 1
        rw [this]
        rw [ceil_tenth_eq]
        simp [ceilTenth]

-- ---------------------------------------------------------------------------
-- Claims C3 and C10: the filter predicate
-- ---------------------------------------------------------------------------

/-- Semantics of one dimension's contribution to the `WHERE` clause: it
constrains the record exactly when the selection is non-empty and strictly
smaller than the domain. -/
theorem clause_sem (v : Option String) (sel dom : List String) :
    (!clauseActive sel dom || inMatch v sel) = true ↔
      (sel ≠ [] ∧ sel.length < dom.length → ∃ s, v = some s ∧ s ∈ sel) := by
  by_cases h1 : sel = []
  · simp [clauseActive, h1]
  · by_cases h2 : sel.length < dom.length
    · have hact : clauseActive sel dom = true := by
        simp [clauseActive, List.isEmpty_iff, h1, h2]
      cases v with
      | none => simp [hact, inMatch, h1, h2]
      | some s => simp [hact, inMatch, h1, h2, List.elem_iff]
    · simp [clauseActive, List.isEmpty_iff, h2]

/-- A domain whose risk dimension knows the single value `"Low"`. -/
def cexDoms : Domains := ⟨["Low"], ["West"], ["Savings"]⟩

/-- A selection whose risk set is non-empty and covers that whole domain. -/
def cexSels : Selections := ⟨["Low"], [], []⟩

/-- A record that is null in every field. -/
def nullRec : Rec := ⟨none, none, none, none, none, none, none⟩

/-- C3, counterexample.  With the selection `{"Low"}` covering the whole
known risk domain `{"Low"}`, the built predicate ACCEPTS a record whose
`risk_tolerance` is null, while the claimed predicate — a membership test
for every non-empty selection — rejects it: the clause is skipped whenever
the selection does not name strictly fewer values than the domain. -/
theorem where_pred_full_domain_cex :
    build_where_pred cexDoms cexSels nullRec = true ∧
    claimC3Pred cexSels nullRec = false := by decide

/-- C3, amended.  The built predicate accepts a record iff, for each
dimension whose selection is non-empty AND strictly smaller than that
dimension's known domain, the record's value is non-null and a member of
the selection; with all three selections empty every record is accepted. -/
theorem where_pred_iff_restricted (doms : Domains) (sels : Selections) (r : Rec) :
    build_where_pred doms sels r = true ↔
      ((sels.risks ≠ [] ∧ sels.risks.length < doms.risks.length →
          ∃ s, r.risk_tolerance = some s ∧ s ∈ sels.risks) ∧
       (sels.regions ≠ [] ∧ sels.regions.length < doms.regions.length →
          ∃ s, r.region = some s ∧ s ∈ sels.regions) ∧
       (sels.accts ≠ [] ∧ sels.accts.length < doms.acct_types.length →
          ∃ s, r.account_type = some s ∧ s ∈ sels.accts)) := by
  rw [build_where_pred, Bool.and_eq_true, Bool.and_eq_true,
    clause_sem, clause_sem, clause_sem, and_assoc]

-- ---------------------------------------------------------------------------
-- Claim C10: a full-domain selection omits its clause
-- ---------------------------------------------------------------------------

/-- C10.  When the selection of the risk dimension equals the whole known
domain, the builder omits that restriction, so a record with a null
`risk_tolerance` passes; for any proper non-empty subset selection, the
same record is rejected. -/
theorem full_domain_selection_null_passes (doms : Domains) (sel : List String) (r : Rec)
    (hnull : r.risk_tolerance = none) :
    (sel = doms.risks → build_where_pred doms ⟨sel, [], []⟩ r = true) ∧
    (sel ≠ [] → sel.Nodup → sel ⊆ doms.risks → (∃ x ∈ doms.risks, x ∉ sel) →
      build_where_pred doms ⟨sel, [], []⟩ r = false) := by
  constructor
  · intro heq
    subst heq
    simp [build_where_pred, clauseActive]
  · rintro hne hnodup hsub ⟨x, hxdom, hxsel⟩
    have hlen : sel.length < doms.risks.length := by
      have hcons : (x :: sel).Nodup := List.nodup_cons.2 ⟨hxsel, hnodup⟩
      have hsub' : (x :: sel) ⊆ doms.risks := by
        intro a ha
        rcases List.mem_cons.1 ha with h | h
        · exact h ▸ hxdom
        · exact hsub h
      have := (List.subperm_of_subset hcons hsub').length_le
      simpa using Nat.lt_of_succ_le (by simpa using this)
    have hact : clauseActive sel doms.risks = true := by
      simp [clauseActive, List.isEmpty_iff, hne, hlen]
    simp [build_where_pred, hact, inMatch, hnull]

/-- C10, witness: the two branches applied to a concrete domain
`{"High", "Low"}` with the full selection and with the proper subset
`{"High"}`. -/
theorem full_domain_selection_null_passes_witness :
    build_where_pred ⟨["High", "Low"], [], []⟩ ⟨["High", "Low"], [], []⟩ nullRec = true ∧
    build_where_pred ⟨["High", "Low"], [], []⟩ ⟨["High"], [], []⟩ nullRec = false := by
  constructor
  · exact (full_domain_selection_null_passes ⟨["High", "Low"], [], []⟩ ["High", "Low"]
      nullRec rfl).1 rfl
  · exact (full_domain_selection_null_passes ⟨["High", "Low"], [], []⟩ ["High"]
      nullRec rfl).2 (by decide) (by decide) (by decide) ⟨"Low", by decide, by decide⟩

-- ---------------------------------------------------------------------------
-- Claim C4: the weighted average interest rate
-- ---------------------------------------------------------------------------

/-- A record with a balance and an interest rate. -/
def c4RecBoth : Rec := ⟨some 100, none, some (5 / 100), none, none, none, none⟩

/-- A record with a balance but a null interest rate. -/
def c4RecNullRate : Rec := ⟨some 100, none, none, none, none, none, none⟩

/-- C4, counterexample.  On a set with one record `(rate 5%, balance 100)`
and one record `(rate NULL, balance 100)`, the code's denominator
`SUM(balance)` also counts the null-rate record's balance: the query yields
`5 / 200 = 1/40`, while the claimed both-non-null restriction yields
`5 / 100 = 1/20`. -/
theorem weighted_rate_denominator_cex :
    weightedAvgRate [c4RecBoth, c4RecNullRate] = some (1 / 40) ∧
    claimC4Rate [c4RecBoth, c4RecNullRate] = some (1 / 20) ∧
    weightedAvgRate [c4RecBoth, c4RecNullRate] ≠ claimC4Rate [c4RecBoth, c4RecNullRate] := by
  have h1 : weightedAvgRate [c4RecBoth, c4RecNullRate] = some (1 / 40) := by
    simp [weightedAvgRate, osum, omul, c4RecBoth, c4RecNullRate]
    norm_num
  have h2 : claimC4Rate [c4RecBoth, c4RecNullRate] = some (1 / 20) := by
    simp [claimC4Rate, c4RecBoth, c4RecNullRate]
    norm_num
  refine ⟨h1, h2, ?_⟩
  rw [h1, h2]
  intro h
  simp only [Option.some.injEq] at h
  norm_num at h

/-- The weighted rate as the code actually computes it, stated as a closed
formula: the numerator ranges over the records with both fields non-null,
the denominator over ALL records with a non-null balance (even those whose
interest rate is null); the result is missing when there is no non-null
balance, when the balance total is 0, or when no record has both fields
non-null. -/
def amendedC4Rate (rs : List Rec) : Option ℚ :=
  let dens := rs.filterMap (·.balance)
  let pairs := rs.filterMap fun r =>
    match r.interest_rate, r.balance with
    | some i, some b => some (i, b)
    | _, _ => none
  if dens = [] then none
  else if dens.sum = 0 then none
  else if pairs = [] then none
  else some ((pairs.map fun p => p.1 * p.2).sum / dens.sum)

/-- C4, amended: `weighted_avg_interest_rate` equals
`Σ(interest_rate × balance) / Σ(balance)` where the numerator ranges over
records with both fields non-null but the denominator over all records with
a non-null balance, undefined when that denominator is 0 or when either sum
has no contributing record. -/
theorem weighted_rate_eq_amended (rs : List Rec) :
    weightedAvgRate rs = amendedC4Rate rs := by
  have hden : (rs.map (·.balance)).filterMap id = rs.filterMap (·.balance) := by
    rw [List.filterMap_map]; rfl
  have hnum : (rs.map (fun r => omul r.interest_rate r.balance)).filterMap id
      = (rs.filterMap fun r =>
          match r.interest_rate, r.balance with
          | some i, some b => some (i, b)
          | _, _ => none).map (fun p => p.1 * p.2) := by
    rw [List.filterMap_map, List.map_filterMap]
    congr 1
    funext r
    cases hi : r.interest_rate <;> cases hb : r.balance <;> simp [omul, hi, hb]
  rw [weightedAvgRate, amendedC4Rate, osum, osum, hden, hnum]
  cases hd : rs.filterMap (·.balance) with
  | nil => simp
  | cons d ds =>
      simp only [List.cons_ne_self, reduceCtorEq, if_neg (List.cons_ne_nil d ds)]
      by_cases hs : (d :: ds).sum = 0
      · simp [hs]
      · simp only [hs, if_neg hs, reduceIte]
        cases hp : (rs.filterMap fun r =>
            match r.interest_rate, r.balance with
            | some i, some b => some (i, b)
            | _, _ => none) with
        | nil => simp
        | cons p ps => simp

-- ---------------------------------------------------------------------------
-- Claim C5: eligibility filtering inside the concentration engine
-- ---------------------------------------------------------------------------

/-- `SUM` of a column known to have at least one non-null value. -/
theorem osum_of_ne_nil (l : List (Option ℚ)) (h : l.filterMap id ≠ []) :
    osum l = some (l.filterMap id).sum := by
  unfold osum
  cases hl : l.filterMap id with
  | nil => exact absurd hl h
  | cons x xs => simp

/-- Appending a record with a null or negative balance leaves the eligible
balance sequence unchanged. -/
theorem eligible_append_irrelevant (rs : List Rec) (r : Rec)
    (h : r.balance = none ∨ ∃ b, r.balance = some b ∧ b < 0) :
    eligibleBalances (rs ++ [r]) = eligibleBalances rs := by
  unfold eligibleBalances
  rw [List.filterMap_append]
  rcases h with h | ⟨b, hb, hneg⟩
  · simp [h]
  · simp [hb, List.filter_cons, not_le.2 hneg]

/-- C5.  Every concentration computation (top-decile share, Lorenz curve,
Gini, decile table) ignores a record whose balance is null or negative —
the `balance IS NOT NULL AND balance >= 0` filter sits inside each
concentration query — while the Aggregate Metrics total balance DOES absorb
a (possibly negative) non-null balance. -/
theorem concentration_excludes_negatives (rs : List Rec) (r : Rec)
    (h : r.balance = none ∨ ∃ b, r.balance = some b ∧ b < 0) :
    top10Share (rs ++ [r]) = top10Share rs ∧
    lorenzCurve (rs ++ [r]) = lorenzCurve rs ∧
    giniOf (rs ++ [r]) = giniOf rs ∧
    decilesOf (rs ++ [r]) = decilesOf rs ∧
    (∀ b, r.balance = some b →
      (overviewOf (rs ++ [r])).total_balance = some ((rs.filterMap (·.balance)).sum + b)) := by
  have he := eligible_append_irrelevant rs r h
  refine ⟨?_, ?_, ?_, ?_, ?_⟩
  · simp only [top10Share, wealthRow, he]
  · simp only [lorenzCurve, lorenzRows, he]
  · simp only [giniOf, lorenzCurve, lorenzRows, he]
  · simp only [decilesOf, he]
  · intro b hb
    have hfm : ((rs ++ [r]).map (·.balance)).filterMap id
        = rs.filterMap (·.balance) ++ [b] := by
      rw [List.filterMap_map]
      show (rs ++ [r]).filterMap (id ∘ (·.balance)) = _
      rw [List.filterMap_append]
      simp [hb]
    have hne : ((rs ++ [r]).map (·.balance)).filterMap id ≠ [] := by
      rw [hfm]; simp
    show osum ((rs ++ [r]).map (·.balance)) = _
    rw [osum_of_ne_nil _ hne, hfm]
    simp

/-- A record holding a positive balance. -/
def posRec : Rec := ⟨some 5, none, none, none, none, none, none⟩

/-- A record holding a negative balance (an overdrawn account). -/
def negRec : Rec := ⟨some (-3), none, none, none, none, none, none⟩

/-- C5, witness: appending an overdrawn account to a one-account set leaves
the top-decile share untouched but shifts the aggregate total balance. -/
theorem concentration_excludes_negatives_witness :
    top10Share ([posRec] ++ [negRec]) = top10Share [posRec] ∧
    (overviewOf ([posRec] ++ [negRec])).total_balance
      = some (([posRec].filterMap (·.balance)).sum + (-3)) := by
  have h := concentration_excludes_negatives [posRec] negRec
    (Or.inr ⟨-3, rfl, by norm_num⟩)
  exact ⟨h.1, h.2.2.2.2 (-3) rfl⟩

-- ---------------------------------------------------------------------------
-- Claim C7: the empty filtered set
-- ---------------------------------------------------------------------------

/-- A record whose risk tier is `"Low"`, with data in every numeric
column. -/
def lowRec : Rec := ⟨some 5, some 2, some (1 / 10), some 1, some "Low", none, none⟩

/-- A domain knowing risk tiers `"High"` and `"Low"`. -/
def c7Doms : Domains := ⟨["High", "Low"], [], []⟩

/-- A selection of the risk tier `"High"` only — present in the domain but
absent from `c7Rs`, so the predicate matches zero records. -/
def c7Sels : Selections := ⟨["High"], [], []⟩

/-- The record set for the empty-filter scenario. -/
def c7Rs : List Rec := [lowRec]

/-- C7, counterexample.  On an empty filtered set the sums are SQL `NULL`
(surfacing as `NaN`), not 0: `total_balance` is missing and renders as the
placeholder, where the claim demands the value 0. -/
theorem empty_filter_sums_cex :
    (overviewOf (c7Rs.filter (build_where_pred c7Doms c7Sels))).total_balance ≠ some 0 ∧
    (overviewOf (c7Rs.filter (build_where_pred c7Doms c7Sels))).total_balance = none ∧
    fmt_money (pyOrZero
      (overviewOf (c7Rs.filter (build_where_pred c7Doms c7Sels))).total_balance)
      = .placeholder := by decide

/-- C7, amended.  A filter selection matching zero records yields
`accounts = 0` while every sum, average and weighted rate is undefined
(SQL `NULL`/`NaN`, never 0 — the `or 0` fallbacks do not engage because
`NaN` is truthy), the top-decile share and Gini are undefined, and all of
them render as the explicit placeholder, never as a number. -/
theorem empty_filter_amended (doms : Domains) (sels : Selections) (rs : List Rec)
    (h : rs.filter (build_where_pred doms sels) = []) :
    (overviewOf (rs.filter (build_where_pred doms sels))).accounts = 0 ∧
    (overviewOf (rs.filter (build_where_pred doms sels))).total_balance = none ∧
    (overviewOf (rs.filter (build_where_pred doms sels))).total_loan_amount = none ∧
    (overviewOf (rs.filter (build_where_pred doms sels))).total_net_flow = none ∧
    (overviewOf (rs.filter (build_where_pred doms sels))).weighted_avg_interest_rate = none ∧
    (overviewOf (rs.filter (build_where_pred doms sels))).avg_net_flow = none ∧
    fmt_money (pyOrZero
      (overviewOf (rs.filter (build_where_pred doms sels))).total_balance) = .placeholder ∧
    fmt_money
      (overviewOf (rs.filter (build_where_pred doms sels))).total_loan_amount = .placeholder ∧
    fmt_pct_from_rate
      (overviewOf (rs.filter (build_where_pred doms sels))).weighted_avg_interest_rate
      = .placeholder ∧
    fmt_money (pyOrZero
      (overviewOf (rs.filter (build_where_pred doms sels))).avg_net_flow) = .placeholder ∧
    fmt_money (pyOrZero
      (overviewOf (rs.filter (build_where_pred doms sels))).total_net_flow) = .placeholder ∧
    top10Share (rs.filter (build_where_pred doms sels)) = none ∧
    fmt_pct (top10Share (rs.filter (build_where_pred doms sels))) = .placeholder ∧
    giniOf (rs.filter (build_where_pred doms sels)) = none ∧
    giniRendered (giniOf (rs.filter (build_where_pred doms sels))) = .placeholder := by
  simp only [h]
  simp [overviewOf, osum, oavg, weightedAvgRate, top10Share, wealthRow, eligibleBalances,
    giniOf, lorenzCurve, lorenzRows, fmt_money, fmt_pct, fmt_pct_from_rate, giniRendered,
    pyOrZero]

/-- C7, witness: the empty-filter policy applied to the concrete scenario
of a selection naming a tier absent from the record set. -/
theorem empty_filter_amended_witness :
    (overviewOf (c7Rs.filter (build_where_pred c7Doms c7Sels))).accounts = 0 ∧
    giniRendered (giniOf (c7Rs.filter (build_where_pred c7Doms c7Sels))) = .placeholder := by
  have h := empty_filter_amended c7Doms c7Sels c7Rs (by decide)
  exact ⟨h.1, h.2.2.2.2.2.2.2.2.2.2.2.2.2.2⟩

-- ---------------------------------------------------------------------------
-- Claim C1: Gini = 1 - 2 * trapezoidal area under the Lorenz curve
-- ---------------------------------------------------------------------------

/-- Stripping a curve whose coordinates are all present yields the list of
numeric points. -/
theorem stripPts_map_some (f g : ℕ → ℚ) (l : List ℕ) :
    stripPts (l.map fun i => (some (f i), some (g i))) = some (l.map fun i => (f i, g i)) := by
  induction l with
  | nil => rfl
  | cons x xs ih => simp [stripPts, ih]

/-- Closed form of the code's Gini on a non-empty eligible balance sequence
with non-zero total: all `CASE` branches produce values and the trapezoid
runs over the origin-prefixed share points. -/
theorem giniOf_eq_of (rs : List Rec) (hn : eligibleBalances rs ≠ [])
    (hs : (eligibleBalances rs).sum ≠ 0) :
    giniOf rs = some (1 - 2 * trapzArea ((0, 0) ::
      (List.range (eligibleBalances rs).length).map fun (i : ℕ) =>
        (((i : ℚ) + 1) / (eligibleBalances rs).length,
         ((sortAsc (eligibleBalances rs)).take (i + 1)).sum / (eligibleBalances rs).sum))) := by
  have hlen : (eligibleBalances rs).length ≠ 0 := by
    simpa [List.length_eq_zero] using hn
  unfold giniOf lorenzCurve lorenzRows
  rw [if_neg hlen]
  simp only [if_neg hlen, if_neg hs]
  rw [show (stripPts ((some (0:ℚ), some (0:ℚ)) ::
      (List.range (eligibleBalances rs).length).map fun (i : ℕ) =>
        (some (((i : ℚ) + 1) / (eligibleBalances rs).length),
         some (((sortAsc (eligibleBalances rs)).take (i + 1)).sum / (eligibleBalances rs).sum))))
      = some ((0, 0) :: (List.range (eligibleBalances rs).length).map fun (i : ℕ) =>
        (((i : ℚ) + 1) / (eligibleBalances rs).length,
         ((sortAsc (eligibleBalances rs)).take (i + 1)).sum / (eligibleBalances rs).sum))
    from by simp [stripPts, stripPts_map_some]]

/-- C1.  On a non-empty eligible balance sequence with positive total, the
code's Gini equals `1 - 2A` for `A` the trapezoidal area under the spec's
Lorenz points (origin plus the `n` points `(i/n, cumsum_i/total)` over the
ascending sort, population share as the integration variable), and that
point sequence has exactly `n + 1` points — as does the curve the code
plots. -/
theorem gini_matches_spec (rs : List Rec)
    (hne : eligibleBalances rs ≠ [])
    (hpos : 0 < (eligibleBalances rs).sum) :
    giniOf rs = some (specGini (eligibleBalances rs)) ∧
    (specLorenzPoints (eligibleBalances rs)).length = (eligibleBalances rs).length + 1 ∧
    ∃ c, lorenzCurve rs = some c ∧ c.length = (eligibleBalances rs).length + 1 := by
  have hs : (eligibleBalances rs).sum ≠ 0 := ne_of_gt hpos
  have hlen : (eligibleBalances rs).length ≠ 0 := by
    simpa [List.length_eq_zero] using hne
  refine ⟨?_, ?_, ?_⟩
  · rw [giniOf_eq_of rs hne hs]
    unfold specGini specLorenzPoints
    have hmap : (List.range' 1 (eligibleBalances rs).length).map
        (fun (i : ℕ) => ((i : ℚ) / (eligibleBalances rs).length,
          ((sortAsc (eligibleBalances rs)).take i).sum / (eligibleBalances rs).sum))
        = (List.range (eligibleBalances rs).length).map fun (i : ℕ) =>
          (((i : ℚ) + 1) / (eligibleBalances rs).length,
           ((sortAsc (eligibleBalances rs)).take (i + 1)).sum / (eligibleBalances rs).sum) := by
      rw [List.range'_eq_map_range, List.map_map]
      apply List.map_congr_left
      intro i _
      simp only [Function.comp_apply]
      rw [Nat.add_comm 1 i]
      push_cast
      rfl
    rw [hmap]
  · simp [specLorenzPoints]
  · refine ⟨(some 0, some 0) :: lorenzRows rs, ?_, ?_⟩
    · unfold lorenzCurve
      rw [if_neg hlen]
    · simp [lorenzRows]

/-- C1, witness: the closed form evaluated on the single-account set. -/
theorem gini_matches_spec_witness :
    giniOf [posRec] = some (specGini (eligibleBalances [posRec])) := by
  refine (gini_matches_spec [posRec] ?_ ?_).1
  · decide
  · show 0 < (eligibleBalances [posRec]).sum
    simp [eligibleBalances, posRec]

-- ---------------------------------------------------------------------------
-- Claim C9: closed-form boundary cases
-- ---------------------------------------------------------------------------

/-- The trapezoid sum along points of the diagonal telescopes. -/
theorem trapz_diag (xs : List ℚ) :
    ∀ a : ℚ, trapzArea ((a, a) :: xs.map fun x => (x, x))
      = ((xs.getLastD a) ^ 2 - a ^ 2) / 2 := by
  induction xs with
  | nil => intro a; simp [trapzArea]
  | cons y ys ih =>
      intro a
      simp only [List.map_cons, trapzArea, List.getLastD_cons]
      rw [ih y]
      ring

/-- A record holding just the balance `b`. -/
def balRec (b : ℚ) : Rec := ⟨some b, none, none, none, none, none, none⟩

/-- The spec scenario: one account with balance 1000, nine with balance
0. -/
def singleHolderRecs : List Rec := balRec 1000 :: List.replicate 9 (balRec 0)

/-- C9.  The pipeline reproduces the spec's closed-form boundary cases: a
population of `n ≥ 1` equal positive balances has Gini exactly 0, and the
ten-account single-holder population has top-decile share 1 and Gini
9/10. -/
theorem boundary_cases (n : ℕ) (b : ℚ) (hn : 1 ≤ n) (hb : 0 < b) :
    giniOf (List.replicate n (balRec b)) = some 0 ∧
    top10Share singleHolderRecs = some 1 ∧
    giniOf singleHolderRecs = some (9 / 10) := by
  refine ⟨?_, ?_, ?_⟩
  · have he : eligibleBalances (List.replicate n (balRec b)) = List.replicate n b := by
      unfold eligibleBalances
      rw [List.filterMap_replicate_of_some (by rfl : (balRec b).balance = some b)]
      rw [List.filter_replicate, if_pos (by simpa using le_of_lt hb)]
    have hsum : (List.replicate n b).sum = (n : ℚ) * b := by
      rw [List.sum_replicate, nsmul_eq_mul]
    have hn0 : (n : ℚ) ≠ 0 := Nat.cast_ne_zero.2 (by omega)
    have hs : (List.replicate n b).sum ≠ 0 := by
      rw [hsum]; exact mul_ne_zero hn0 (ne_of_gt hb)
    have hne : eligibleBalances (List.replicate n (balRec b)) ≠ [] := by
      rw [he]
      simp [List.replicate_eq_nil_iff]
      omega
    rw [giniOf_eq_of _ hne (he ▸ hs)]
    rw [he]
    have hsort : sortAsc (List.replicate n b) = List.replicate n b :=
      List.Sorted.insertionSort_eq
        (List.pairwise_replicate.2 (Or.inr (le_refl b)))
    have hlen : (List.replicate n b).length = n := List.length_replicate n b
    have hpts : (List.range (List.replicate n b).length).map
        (fun (i : ℕ) => (((i : ℚ) + 1) / (List.replicate n b).length,
          ((sortAsc (List.replicate n b)).take (i + 1)).sum / (List.replicate n b).sum))
        = (List.range n).map fun (i : ℕ) =>
            (((i : ℚ) + 1) / n, ((i : ℚ) + 1) / n) := by
      rw [hlen]
      apply List.map_congr_left
      intro i hi
      have hilt : i < n := List.mem_range.1 hi
      rw [hsort, List.take_replicate, Nat.min_eq_left (by omega), List.sum_replicate,
        nsmul_eq_mul, hsum]
      have : ((i + 1 : ℕ) : ℚ) * b / ((n : ℚ) * b) = ((i : ℚ) + 1) / n := by
        rw [mul_div_mul_comm, div_self (ne_of_gt hb), mul_one]
        push_cast
        ring_nf
      rw [this]
    rw [hpts]
    have hdiag : ((0 : ℚ), (0 : ℚ)) :: ((List.range n).map fun (i : ℕ) =>
        (((i : ℚ) + 1) / n, ((i : ℚ) + 1) / n))
        = ((0 : ℚ), (0 : ℚ)) ::
          (((List.range n).map fun (i : ℕ) => ((i : ℚ) + 1) / n).map fun x => (x, x)) := by
      rw [List.map_map]
      rfl
    rw [hdiag, trapz_diag]
    obtain ⟨m, rfl⟩ : ∃ m, n = m + 1 := ⟨n - 1, by omega⟩
    have hlast : (((List.range (m + 1)).map fun (i : ℕ) =>
        ((i : ℚ) + 1) / (((m + 1 : ℕ) : ℚ))).getLastD 0) = 1 := by
      rw [List.range_succ, List.map_append]
      simp only [List.map_cons, List.map_nil, List.getLastD_concat]
      rw [div_eq_one_iff_eq (Nat.cast_ne_zero.2 (Nat.succ_ne_zero m))]
      push_cast
      ring
    rw [hlast]
    norm_num
  · simp only [singleHolderRecs, balRec]
    simp [top10Share, wealthRow, eligibleBalances, sortDesc, caseSum, ceilTenth,
      List.replicate, List.insertionSort, List.orderedInsert]
  · simp only [singleHolderRecs, balRec]
    simp [giniOf, lorenzCurve, lorenzRows, stripPts, trapzArea, eligibleBalances, sortAsc,
      List.replicate, List.insertionSort, List.orderedInsert, List.range_succ]
    norm_num

/-- C9, witness: the uniform branch applied to three accounts of balance 5
(the concrete branches carry no hypothesis). -/
theorem boundary_cases_witness :
    giniOf (List.replicate 3 (balRec 5)) = some 0 :=
  (boundary_cases 3 5 (by norm_num) (by norm_num)).1

-- ---------------------------------------------------------------------------
-- Claim C8: segment rollups
-- ---------------------------------------------------------------------------

/-- Three accounts: risk tiers `"Low"`, `"High"` and null. -/
def c8Rs : List Rec :=
  [⟨none, none, none, none, some "Low", none, none⟩,
   ⟨none, none, none, none, some "High", none, none⟩,
   ⟨none, none, none, none, none, none, none⟩]

/-- The domain of the two known risk tiers. -/
def c8Doms : Domains := ⟨["High", "Low"], [], []⟩

/-- A selection keeping only the `"Low"` tier. -/
def c8Sels : Selections := ⟨["Low"], [], []⟩

/-- C8, counterexample.  With the `"Low"` filter active, the filtered set
has one distinct non-null risk value, but the risk rollup the code computes
carries three rows — it queries the full table with no `WHERE` clause and
`GROUP BY` keeps a row for the null tier. -/
theorem risk_rollup_filtered_cex :
    (riskRollupOf c8Rs).length = 3 ∧
    ((c8Rs.filter (build_where_pred c8Doms c8Sels)).filterMap
      (·.risk_tolerance)).dedup.length = 1 ∧
    riskRollupOf c8Rs ≠ claimC8RiskRollup c8Rs (build_where_pred c8Doms c8Sels) := by
  decide

/-- Shared shape of the two flow rollups: the row keys enumerate the
distinct group values (null included), rows are sorted by descending total
net flow, and each row counts exactly its group's records. -/
theorem flowRollup_generic (key : Rec → Option String) (rs : List Rec) :
    List.Perm ((((rs.map key).dedup.map (flowRowOf key rs)).insertionSort flowGe).map
        (·.group_value)) (rs.map key).dedup ∧
    List.Sorted flowGe (((rs.map key).dedup.map (flowRowOf key rs)).insertionSort flowGe) ∧
    ∀ row ∈ ((rs.map key).dedup.map (flowRowOf key rs)).insertionSort flowGe,
      row.accounts = (rs.filter (fun r => decide (key r = row.group_value))).length := by
  refine ⟨?_, List.sorted_insertionSort flowGe _, ?_⟩
  · have h1 := (List.perm_insertionSort flowGe ((rs.map key).dedup.map (flowRowOf key rs))).map
      (·.group_value)
    have h2 : ((rs.map key).dedup.map (flowRowOf key rs)).map (·.group_value)
        = (rs.map key).dedup := by
      rw [List.map_map]
      exact List.map_id'' (fun k => rfl) _
    have h3 : List.Perm (((rs.map key).dedup.map (flowRowOf key rs)).map (·.group_value))
        ((rs.map key).dedup) := by
      rw [h2]
    exact h1.trans h3
  · intro row hrow
    have hmem : row ∈ (rs.map key).dedup.map (flowRowOf key rs) :=
      (List.perm_insertionSort flowGe _).mem_iff.1 hrow
    obtain ⟨k, _, rfl⟩ := List.mem_map.1 hmem
    rfl

/-- C8, amended.  The risk rollup is computed over the FULL record set
(ignoring the filter selection), while the product and region flow rollups
are computed over the filtered set; each rollup has one row per distinct
group value of its record set INCLUDING a row for the null group when
present, the risk rollup is ordered Low, Medium, High, then any other
value, and the flow rollups by descending total net flow. -/
theorem segment_rollups_amended (rs : List Rec) (doms : Domains) (sels : Selections) :
    List.Perm ((riskRollupOf rs).map (·.risk_tolerance)) (rs.map (·.risk_tolerance)).dedup ∧
    List.Sorted riskLe (riskRollupOf rs) ∧
    (∀ row ∈ riskRollupOf rs, row.accounts
        = (rs.filter (fun r => decide (r.risk_tolerance = row.risk_tolerance))).length) ∧
    List.Perm ((flowByProductOf (rs.filter (build_where_pred doms sels))).map (·.group_value))
      ((rs.filter (build_where_pred doms sels)).map (·.account_type)).dedup ∧
    List.Sorted flowGe (flowByProductOf (rs.filter (build_where_pred doms sels))) ∧
    (∀ row ∈ flowByProductOf (rs.filter (build_where_pred doms sels)), row.accounts
        = ((rs.filter (build_where_pred doms sels)).filter
            (fun r => decide (r.account_type = row.group_value))).length) ∧
    List.Perm ((flowByRegionOf (rs.filter (build_where_pred doms sels))).map (·.group_value))
      ((rs.filter (build_where_pred doms sels)).map (·.region)).dedup ∧
    List.Sorted flowGe (flowByRegionOf (rs.filter (build_where_pred doms sels))) ∧
    (∀ row ∈ flowByRegionOf (rs.filter (build_where_pred doms sels)), row.accounts
        = ((rs.filter (build_where_pred doms sels)).filter
            (fun r => decide (r.region = row.group_value))).length) := by
  obtain ⟨hp1, hp2, hp3⟩ := flowRollup_generic (·.account_type)
    (rs.filter (build_where_pred doms sels))
  obtain ⟨hr1, hr2, hr3⟩ := flowRollup_generic (·.region)
    (rs.filter (build_where_pred doms sels))
  refine ⟨?_, List.sorted_insertionSort riskLe _, ?_, hp1, hp2, hp3, hr1, hr2, hr3⟩
  · have h1 := (List.perm_insertionSort riskLe
      ((rs.map (·.risk_tolerance)).dedup.map (riskRowOf rs))).map (·.risk_tolerance)
    have h2 : ((rs.map (·.risk_tolerance)).dedup.map (riskRowOf rs)).map (·.risk_tolerance)
        = (rs.map (·.risk_tolerance)).dedup := by
      rw [List.map_map]
      exact List.map_id'' (fun k => rfl) _
    have h3 : List.Perm
        (((rs.map (·.risk_tolerance)).dedup.map (riskRowOf rs)).map (·.risk_tolerance))
        ((rs.map (·.risk_tolerance)).dedup) := by
      rw [h2]
    exact h1.trans h3
  · intro row hrow
    have hmem : row ∈ (rs.map (·.risk_tolerance)).dedup.map (riskRowOf rs) :=
      (List.perm_insertionSort riskLe _).mem_iff.1 hrow
    obtain ⟨k, _, rfl⟩ := List.mem_map.1 hmem
    rfl

-- ---------------------------------------------------------------------------
-- Claim C6: helper lemmas on NTILE bucketing
-- ---------------------------------------------------------------------------

/-- `MIN` as a fold stays inside the aggregated list. -/
theorem foldl_min_mem (xs : List ℚ) : ∀ x : ℚ, xs.foldl min x ∈ x :: xs := by
  induction xs with
  | nil => intro x; simp
  | cons y ys ih =>
      intro x
      have h := ih (min x y)
      rcases List.mem_cons.1 h with h | h
      · rcases min_choice x y with hc | hc <;> rw [List.foldl_cons, h, hc] <;> simp
      · simp [List.foldl_cons, List.mem_cons.2 (Or.inr (List.mem_cons.2 (Or.inr h)))]

/-- `MAX` as a fold stays inside the aggregated list. -/
theorem foldl_max_mem (xs : List ℚ) : ∀ x : ℚ, xs.foldl max x ∈ x :: xs := by
  induction xs with
  | nil => intro x; simp
  | cons y ys ih =>
      intro x
      have h := ih (max x y)
      rcases List.mem_cons.1 h with h | h
      · rcases max_choice x y with hc | hc <;> rw [List.foldl_cons, h, hc] <;> simp
      · simp [List.foldl_cons, List.mem_cons.2 (Or.inr (List.mem_cons.2 (Or.inr h)))]

/-- Splitting along concatenated size lists splits the suffix after the
first sizes are consumed. -/
theorem splitSizes_append (s1 s2 : List ℕ) :
    ∀ xs : List ℚ, splitSizes (s1 ++ s2) xs
      = splitSizes s1 xs ++ splitSizes s2 (xs.drop s1.sum) := by
  induction s1 with
  | nil => intro xs; simp [splitSizes]
  | cons s ss ih =>
      intro xs
      show xs.take s :: splitSizes (ss ++ s2) (xs.drop s)
        = (xs.take s :: splitSizes ss (xs.drop s)) ++ splitSizes s2 (xs.drop (s :: ss).sum)
      rw [List.cons_append, ih, List.drop_drop, List.sum_cons]

/-- Every chunk is made of elements of the split list. -/
theorem mem_splitSizes_subset (sizes : List ℕ) :
    ∀ (xs : List ℚ) g, g ∈ splitSizes sizes xs → g ⊆ xs := by
  induction sizes with
  | nil => intro xs g hg; simp [splitSizes] at hg
  | cons s ss ih =>
      intro xs g hg
      rcases List.mem_cons.1 hg with h | h
      · exact h ▸ List.take_subset s xs
      · exact (ih _ g h).trans (List.drop_subset s xs)

/-- When the sizes fit, the chunks have exactly the requested lengths. -/
theorem splitSizes_lengths (sizes : List ℕ) :
    ∀ xs : List ℚ, sizes.sum ≤ xs.length →
      (splitSizes sizes xs).map List.length = sizes := by
  induction sizes with
  | nil => intro xs _; simp [splitSizes]
  | cons s ss ih =>
      intro xs hle
      rw [List.sum_cons] at hle
      have h1 : (xs.take s).length = s := by
        rw [List.length_take]
        omega
      have h2 : ss.sum ≤ (xs.drop s).length := by
        rw [List.length_drop]
        omega
      simp [splitSizes, h1, ih _ h2]

/-- Chunks of a descending-sorted list dominate the later chunks
elementwise. -/
theorem splitSizes_pairwise (sizes : List ℕ) :
    ∀ xs : List ℚ, List.Pairwise (fun a b => b ≤ a) xs →
      List.Pairwise (fun g g' => ∀ a ∈ g, ∀ b ∈ g', b ≤ a) (splitSizes sizes xs) := by
  induction sizes with
  | nil => intro xs _; simp [splitSizes]
  | cons s ss ih =>
      intro xs hs
      rw [splitSizes, List.pairwise_cons]
      constructor
      · intro g' hg' a ha b hb
        have hbdrop : b ∈ xs.drop s := mem_splitSizes_subset ss _ g' hg' hb
        have := hs
        rw [← List.take_append_drop s xs] at this
        exact (List.pairwise_append.1 this).2.2 a ha b hbdrop
      · exact ih _ (List.Pairwise.sublist (List.drop_sublist s xs) hs)

/-- Splitting along all-zero sizes produces only empty chunks. -/
theorem splitSizes_zeroes (sizes : List ℕ) :
    ∀ xs : List ℚ, (∀ s ∈ sizes, s = 0) → ∀ g ∈ splitSizes sizes xs, g = [] := by
  induction sizes with
  | nil => intro xs _ g hg; simp [splitSizes] at hg
  | cons s ss ih =>
      intro xs h0 g hg
      rcases List.mem_cons.1 hg with h | h
      · rw [h, h0 s (List.mem_cons_self s ss), List.take_zero]
      · exact ih _ (fun t ht => h0 t (List.mem_cons.2 (Or.inr ht))) g h

/-- Sum of the `NTILE` shares over an initial range. -/
theorem range_ite_sum (q r : ℕ) :
    ∀ k : ℕ, ((List.range k).map fun i => q + if i < r then 1 else 0).sum
      = k * q + min r k := by
  intro k
  induction k with
  | zero => simp
  | succ k ih =>
      rw [List.range_succ, List.map_append, List.sum_append, ih, Nat.succ_mul]
      simp only [List.map_cons, List.map_nil, List.sum_cons, List.sum_nil]
      by_cases h : k < r
      · rw [if_pos h]
        omega
      · rw [if_neg h]
        omega

/-- The ten `NTILE(10)` bucket sizes sum to the row count. -/
theorem ntileSizes_sum (n : ℕ) : (ntileSizes n).sum = n := by
  unfold ntileSizes
  rw [range_ite_sum]
  have h1 := Nat.div_add_mod n 10
  have h2 : n % 10 < 10 := Nat.mod_lt _ (by norm_num)
  omega

/-- Every `NTILE(10)` bucket size is `n / 10` or `n / 10 + 1`. -/
theorem ntileSizes_mem (n s : ℕ) (h : s ∈ ntileSizes n) :
    s = n / 10 ∨ s = n / 10 + 1 := by
  unfold ntileSizes at h
  obtain ⟨i, _, rfl⟩ := List.mem_map.1 h
  by_cases hi : i < n % 10 <;> simp [hi]

/-- The `NTILE(10)` size list splits into `min n 10` positive sizes
followed by zero sizes. -/
theorem ntileSizes_decomp (n : ℕ) :
    ntileSizes n
      = ((List.range (min n 10)).map fun i => n / 10 + if i < n % 10 then 1 else 0)
        ++ ((List.range' (min n 10) (10 - min n 10)).map
            fun i => n / 10 + if i < n % 10 then 1 else 0) := by
  unfold ntileSizes
  rw [← List.map_append]
  congr 1
  rw [List.range_eq_range', List.range_eq_range']
  have h := List.range'_append_1 0 (min n 10) (10 - min n 10)
  rw [Nat.zero_add] at h
  have h2 : 10 - min n 10 + min n 10 = 10 := by omega
  rw [h2] at h
  exact h.symm

/-- The first `min n 10` bucket sizes are positive. -/
theorem ntileSizes_prefix_pos (n : ℕ) :
    ∀ s ∈ (List.range (min n 10)).map fun i => n / 10 + if i < n % 10 then 1 else 0,
      0 < s := by
  intro s hs
  obtain ⟨i, hi, rfl⟩ := List.mem_map.1 hs
  have hilt : i < min n 10 := List.mem_range.1 hi
  have h1 := Nat.div_add_mod n 10
  have h2 : n % 10 < 10 := Nat.mod_lt _ (by norm_num)
  by_cases hc : i < n % 10
  · simp [hc]
  · simp [hc]
    omega

/-- The remaining bucket sizes are zero. -/
theorem ntileSizes_suffix_zero (n : ℕ) :
    ∀ s ∈ (List.range' (min n 10) (10 - min n 10)).map
        fun i => n / 10 + if i < n % 10 then 1 else 0,
      s = 0 := by
  intro s hs
  obtain ⟨i, hi, rfl⟩ := List.mem_map.1 hs
  obtain ⟨j, hj, rfl⟩ := List.mem_range'.1 hi
  have h1 := Nat.div_add_mod n 10
  have h2 : n % 10 < 10 := Nat.mod_lt _ (by norm_num)
  have : ¬ (min n 10 + 1 * j < n % 10) := by omega
  simp [this]
  omega

/-- `GROUP BY decile` over split buckets distributes over concatenation,
numbering the later buckets after the earlier ones. -/
theorem decileRowsAux_append (gs1 gs2 : List (List ℚ)) :
    ∀ d : ℕ, decileRowsAux d (gs1 ++ gs2)
      = decileRowsAux d gs1 ++ decileRowsAux (d + gs1.length) gs2 := by
  induction gs1 with
  | nil => intro d; simp [decileRowsAux]
  | cons g gs ih =>
      intro d
      have harith : d + 1 + gs.length = d + (g :: gs).length := by
        simp
        omega
      cases g with
      | nil =>
          show decileRowsAux (d + 1) (gs ++ gs2) = _
          rw [ih (d + 1), harith]
          rfl
      | cons x xs =>
          show _ :: decileRowsAux (d + 1) (gs ++ gs2) = _
          rw [ih (d + 1), harith]
          rfl

/-- Buckets that received no rows produce no `GROUP BY` rows. -/
theorem decileRowsAux_nil_of (gs : List (List ℚ)) :
    ∀ d : ℕ, (∀ g ∈ gs, g = []) → decileRowsAux d gs = [] := by
  induction gs with
  | nil => intro d _; rfl
  | cons g gs ih =>
      intro d h0
      have hg : g = [] := h0 g (List.mem_cons_self g gs)
      subst hg
      exact ih (d + 1) fun t ht => h0 t (List.mem_cons.2 (Or.inr ht))

/-- Every produced row aggregates one non-empty bucket: its fields are the
bucket's count, fold-min, fold-max, sum and mean. -/
theorem decileRowsAux_mem (gs : List (List ℚ)) :
    ∀ (d : ℕ) row, row ∈ decileRowsAux d gs →
      ∃ x xs, (x :: xs) ∈ gs ∧ row.accounts = (x :: xs).length ∧
        row.min_balance = xs.foldl min x ∧ row.max_balance = xs.foldl max x ∧
        row.total_balance = (x :: xs).sum ∧
        row.avg_balance = (x :: xs).sum / ((x :: xs).length : ℚ) := by
  induction gs with
  | nil => intro d row hrow; simp [decileRowsAux] at hrow
  | cons g gs ih =>
      intro d row hrow
      cases g with
      | nil =>
          obtain ⟨x, xs, hmem, hrest⟩ := ih (d + 1) row hrow
          exact ⟨x, xs, List.mem_cons.2 (Or.inr hmem), hrest⟩
      | cons x xs =>
          rcases List.mem_cons.1 hrow with h | h
          · refine ⟨x, xs, List.mem_cons.2 (Or.inl rfl), ?_⟩
            rw [h]
            exact ⟨rfl, rfl, rfl, rfl, rfl⟩
          · obtain ⟨y, ys, hmem, hrest⟩ := ih (d + 1) row h
            exact ⟨y, ys, List.mem_cons.2 (Or.inr hmem), hrest⟩

/-- With only non-empty buckets, `GROUP BY` yields one row per bucket. -/
theorem decileRowsAux_length_of_ne_nil (gs : List (List ℚ)) :
    ∀ d : ℕ, (∀ g ∈ gs, g ≠ []) → (decileRowsAux d gs).length = gs.length := by
  induction gs with
  | nil => intro d _; rfl
  | cons g gs ih =>
      intro d hne
      cases hg : g with
      | nil => exact absurd hg (hne g (List.mem_cons_self g gs))
      | cons x xs =>
          show (_ :: decileRowsAux (d + 1) gs).length = _
          rw [List.length_cons, ih (d + 1) fun t ht => hne t (List.mem_cons.2 (Or.inr ht))]
          rfl

/-- The reported account counts add up to the total number of bucketed
rows. -/
theorem decileRowsAux_counts (gs : List (List ℚ)) :
    ∀ d : ℕ, ((decileRowsAux d gs).map (·.accounts)).sum = (gs.map List.length).sum := by
  induction gs with
  | nil => intro d; rfl
  | cons g gs ih =>
      intro d
      cases g with
      | nil =>
          show ((decileRowsAux (d + 1) gs).map (·.accounts)).sum = _
          rw [ih (d + 1)]
          simp
      | cons x xs =>
          show (_ :: (decileRowsAux (d + 1) gs).map (·.accounts)).sum = _
          rw [List.sum_cons, ih (d + 1)]
          simp

/-- If buckets dominate the later buckets elementwise, the per-bucket rows
are ordered richest group first: every later row's max is at most the
earlier row's min. -/
theorem decileRowsAux_pairwise (gs : List (List ℚ)) :
    ∀ d : ℕ, List.Pairwise (fun g g' => ∀ a ∈ g, ∀ b ∈ g', b ≤ a) gs →
      List.Pairwise (fun r1 r2 => r2.max_balance ≤ r1.min_balance) (decileRowsAux d gs) := by
  induction gs with
  | nil => intro d _; exact List.Pairwise.nil
  | cons g gs ih =>
      intro d hp
      rw [List.pairwise_cons] at hp
      obtain ⟨hhead, htail⟩ := hp
      cases g with
      | nil => exact ih (d + 1) htail
      | cons x xs =>
          show List.Pairwise _ (_ :: decileRowsAux (d + 1) gs)
          rw [List.pairwise_cons]
          refine ⟨?_, ih (d + 1) htail⟩
          intro r2 hr2
          obtain ⟨y, ys, hmem, _, _, hmax, _, _⟩ := decileRowsAux_mem gs (d + 1) r2 hr2
          have hdom := hhead (y :: ys) hmem
          have hmaxmem : ys.foldl max y ∈ y :: ys := foldl_max_mem ys y
          have hminmem : xs.foldl min x ∈ x :: xs := foldl_min_mem xs x
          show r2.max_balance ≤ xs.foldl min x
          rw [hmax]
          exact hdom _ hminmem _ hmaxmem

/-- C6, counterexample.  On four eligible balances the decile table has 4
rows, not 10: `NTILE(10)` leaves six buckets empty and `GROUP BY decile`
emits no row for them. -/
theorem decile_table_row_count_cex :
    (decilesOf (([1, 2, 3, 4] : List ℚ).map balRec)).length = 4 ∧
    (decilesOf (([1, 2, 3, 4] : List ℚ).map balRec)).length ≠ 10 := by
  have h : (decilesOf (([1, 2, 3, 4] : List ℚ).map balRec)).length = 4 := rfl
  exact ⟨h, by rw [h]; norm_num⟩

/-- C6, amended.  For a non-empty eligible balance sequence of length `n`
the decile table has `min n 10` rows (so 10 only when `n ≥ 10`); the row
counts sum to `n` and differ by at most one (each is `n/10` or `n/10 + 1`);
every emitted row is non-empty; the first row is decile 1 and rows are
ordered so that each later row's max balance is at most every earlier row's
min balance (decile 1 holds the largest balances); and each row reports
count, min, mean, max and total balance with mean = total / count. -/
theorem decile_table_amended (rs : List Rec) (hne : eligibleBalances rs ≠ []) :
    (decilesOf rs).length = min (eligibleBalances rs).length 10 ∧
    ((decilesOf rs).map (·.accounts)).sum = (eligibleBalances rs).length ∧
    (∀ row ∈ decilesOf rs,
      row.accounts = (eligibleBalances rs).length / 10 ∨
        row.accounts = (eligibleBalances rs).length / 10 + 1) ∧
    (∀ row ∈ decilesOf rs, 0 < row.accounts) ∧
    ((decilesOf rs).head?.map (·.decile)) = some 1 ∧
    List.Pairwise (fun r1 r2 => r2.max_balance ≤ r1.min_balance) (decilesOf rs) ∧
    (∀ row ∈ decilesOf rs, row.avg_balance = row.total_balance / (row.accounts : ℚ)) := by
  have hdec : decilesOf rs
      = decileRowsAux 1 (splitSizes (ntileSizes (eligibleBalances rs).length)
          (sortDesc (eligibleBalances rs))) := rfl
  rw [hdec]
  generalize hbs : eligibleBalances rs = bs at hne
  have hxlen : (sortDesc bs).length = bs.length :=
    (List.perm_insertionSort (α := ℚ) (· ≥ ·) bs).length_eq
  have hnsum : (ntileSizes bs.length).sum = bs.length := ntileSizes_sum _
  have hlengths : (splitSizes (ntileSizes bs.length) (sortDesc bs)).map List.length
      = ntileSizes bs.length :=
    splitSizes_lengths _ _ (by rw [hnsum, hxlen])
  have hdecomp := ntileSizes_decomp bs.length
  have hc1 : 1 ≤ min bs.length 10 := by
    have : bs.length ≠ 0 := by simpa [List.length_eq_zero] using hne
    omega
  have hsB0 := ntileSizes_suffix_zero bs.length
  have hsBsum : ((List.range' (min bs.length 10) (10 - min bs.length 10)).map
      fun i => bs.length / 10 + if i < bs.length % 10 then 1 else 0).sum = 0 :=
    List.sum_eq_zero hsB0
  have hsAsum : ((List.range (min bs.length 10)).map
      fun i => bs.length / 10 + if i < bs.length % 10 then 1 else 0).sum = bs.length := by
    have h := hnsum
    rw [hdecomp, List.sum_append, hsBsum] at h
    omega
  have hgA_lengths : (splitSizes ((List.range (min bs.length 10)).map
      fun i => bs.length / 10 + if i < bs.length % 10 then 1 else 0) (sortDesc bs)).map
      List.length
      = (List.range (min bs.length 10)).map
          fun i => bs.length / 10 + if i < bs.length % 10 then 1 else 0 :=
    splitSizes_lengths _ _ (by rw [hsAsum, hxlen])
  have hgA_ne : ∀ g ∈ splitSizes ((List.range (min bs.length 10)).map
      fun i => bs.length / 10 + if i < bs.length % 10 then 1 else 0) (sortDesc bs),
      g ≠ [] := by
    intro g hg hgnil
    have hmem : g.length ∈ (List.range (min bs.length 10)).map
        fun i => bs.length / 10 + if i < bs.length % 10 then 1 else 0 := by
      rw [← hgA_lengths]
      exact List.mem_map_of_mem List.length hg
    have := ntileSizes_prefix_pos bs.length g.length hmem
    rw [hgnil] at this
    simp at this
  have hrows : decileRowsAux 1 (splitSizes (ntileSizes bs.length) (sortDesc bs))
      = decileRowsAux 1 (splitSizes ((List.range (min bs.length 10)).map
          fun i => bs.length / 10 + if i < bs.length % 10 then 1 else 0) (sortDesc bs)) := by
    rw [hdecomp, splitSizes_append, decileRowsAux_append]
    rw [decileRowsAux_nil_of _ _ (splitSizes_zeroes _ _ hsB0), List.append_nil]
  have hgA_len : (splitSizes ((List.range (min bs.length 10)).map
      fun i => bs.length / 10 + if i < bs.length % 10 then 1 else 0) (sortDesc bs)).length
      = min bs.length 10 := by
    have := congrArg List.length hgA_lengths
    rw [List.length_map, List.length_map, List.length_range] at this
    exact this
  refine ⟨?_, ?_, ?_, ?_, ?_, ?_, ?_⟩
  · rw [hrows, decileRowsAux_length_of_ne_nil _ _ hgA_ne, hgA_len]
  · rw [decileRowsAux_counts, hlengths, hnsum]
  · intro row hrow
    rw [hrows] at hrow
    obtain ⟨x, xs, hmem, hacc, _⟩ := decileRowsAux_mem _ _ row hrow
    have hlenmem : (x :: xs).length ∈ (List.range (min bs.length 10)).map
        fun i => bs.length / 10 + if i < bs.length % 10 then 1 else 0 := by
      rw [← hgA_lengths]
      exact List.mem_map_of_mem List.length hmem
    have hsz : (x :: xs).length ∈ ntileSizes bs.length := by
      rw [hdecomp]
      exact List.mem_append_left _ hlenmem
    rw [hacc]
    exact ntileSizes_mem _ _ hsz
  · intro row hrow
    rw [hrows] at hrow
    obtain ⟨x, xs, _, hacc, _⟩ := decileRowsAux_mem _ _ row hrow
    rw [hacc]
    simp
  · rw [hrows]
    cases hgA : splitSizes ((List.range (min bs.length 10)).map
        fun i => bs.length / 10 + if i < bs.length % 10 then 1 else 0) (sortDesc bs) with
    | nil =>
        rw [hgA] at hgA_len
        simp at hgA_len
        omega
    | cons g0 rest =>
        have hg0ne : g0 ≠ [] := hgA_ne g0 (hgA ▸ List.mem_cons_self g0 rest)
        cases hg0 : g0 with
        | nil => exact absurd hg0 hg0ne
        | cons x xs => rfl
  · apply decileRowsAux_pairwise
    apply splitSizes_pairwise
    exact List.sorted_insertionSort (· ≥ ·) bs
  · intro row hrow
    obtain ⟨x, xs, _, hacc, _, _, htot, havg⟩ := decileRowsAux_mem _ _ row hrow
    rw [havg, htot, hacc]

/-- C6, witness: the amended decile facts evaluated on four eligible
balances — the table's first row is decile 1. -/
theorem decile_table_amended_witness :
    ((decilesOf (([1, 2, 3, 4] : List ℚ).map balRec)).head?.map (·.decile)) = some 1 :=
  (decile_table_amended (([1, 2, 3, 4] : List ℚ).map balRec) (by decide)).2.2.2.2.1

end App
